import Mathlib

/-!
Verification of the single-board chat server (`server/server.go`).

The Board actor owns a membership mapping `clients : map[string]chan<- *Notification`
and processes LOGIN / LOGOUT / TEXTLINE events one at a time in `HandleBoard`.
We embed one iteration of that event loop as a pure function from the current
membership mapping and the consumed event to the new mapping together with the
list of channel sends it performs.  Go channels are modelled by `Nat`
identifiers; the Go map is modelled by an association list with Go-map
insert/overwrite and delete semantics.  The connection handler (`Serve`) is
embedded as the pure line-splitting / trimming / formatting functions it is
built from.
-/

/-- Go `type MsgType int`: an `int`-valued tag, so values outside the three
named constants are representable. -/
abbrev MsgType := Int

/-- `LOGIN MsgType = iota` -/
def LOGIN : MsgType := 0
/-- `LOGOUT` -/
def LOGOUT : MsgType := 1
/-- `TEXTLINE` -/
def TEXTLINE : MsgType := 2

/-- Go `type Notification struct { Type MsgType; Msg string; Name string;
ReplyCh chan<- *Notification }`.  The channel field is modelled by a `Nat`
identifier; the zero value of each field models Go's zero value (`0`, `""`,
nil channel = `0`). -/
structure Notification where
  type : MsgType
  Msg : String := ""
  Name : String := ""
  ReplyCh : Nat := 0
deriving DecidableEq, Repr

/-- The Board's membership mapping `clients map[string]chan<- *Notification`,
as an association list from client name to channel identifier. -/
abbrev Clients := List (String × Nat)

/-- Go map assignment `b.clients[m.Name] = m.ReplyCh`: overwrite the binding
if the key is present, otherwise add a new binding. -/
def mapInsert (cs : Clients) (k : String) (v : Nat) : Clients :=
  if cs.any (fun p => p.1 = k) then
    cs.map (fun p => if p.1 = k then (k, v) else p)
  else
    cs ++ [(k, v)]

/-- Go `delete(b.clients, m.Name)`: remove the key's binding if present,
no-op otherwise. -/
def mapDelete (cs : Clients) (k : String) : Clients :=
  cs.filter (fun p => p.1 ≠ k)

/-- Go map lookup `b.clients[name]`. -/
def mapLookup (cs : Clients) (k : String) : Option Nat :=
  (cs.find? (fun p => p.1 = k)).map (fun p => p.2)

/-- The TEXTLINE loop body of `HandleBoard`:
`for name, ch := range b.clients { if name == m.Name { continue }; ch <- m }`.
Returns the channel sends performed, in iteration order. -/
def publishLoop (m : Notification) : List (String × Nat) → List (Nat × Notification)
  | [] => []
  | (name, ch) :: rest =>
    if name = m.Name then publishLoop m rest
    else (ch, m) :: publishLoop m rest

/-- The result of one iteration of the `HandleBoard` event loop: the new
membership mapping and the sends performed on member channels. -/
structure BoardEffect where
  clients : Clients
  sends : List (Nat × Notification)
deriving DecidableEq

/-- One iteration of `Board.HandleBoard`'s event loop body: the
`switch m.Type` over LOGIN / LOGOUT / TEXTLINE; a tag matching no case
falls through the switch doing nothing. -/
def handleBoard1 (cs : Clients) (m : Notification) : BoardEffect :=
  if m.type = LOGIN then
    { clients := mapInsert cs m.Name m.ReplyCh, sends := [] }
  else if m.type = LOGOUT then
    { clients := mapDelete cs m.Name, sends := [] }
  else if m.type = TEXTLINE then
    { clients := cs, sends := publishLoop m cs }
  else
    { clients := cs, sends := [] }

namespace Board

/-- `Board.Login`: sends `&Notification{Type: LOGIN, Name: name, ReplyCh: replyCh}`
to the board's wakeup channel. -/
def Login (name : String) (replyCh : Nat) : Notification :=
  { type := LOGIN, Name := name, ReplyCh := replyCh }

/-- `Board.Logout`: sends `&Notification{Type: LOGOUT, Name: name}`. -/
def Logout (name : String) : Notification :=
  { type := LOGOUT, Name := name }

/-- `Board.Publish`: sends `&Notification{Type: TEXTLINE, Name: name, Msg: msg}`. -/
def Publish (name : String) (msg : String) : Notification :=
  { type := TEXTLINE, Name := name, Msg := msg }

end Board

/- ### Characterization of the publish loop -/

/-- The TEXTLINE loop sends the event to exactly the registered entries whose
name differs from the sender's, in iteration order. -/
theorem publishLoop_eq_filter (m : Notification) (l : List (String × Nat)) :
    publishLoop m l = (l.filter (fun p => p.1 ≠ m.Name)).map (fun p => (p.2, m)) := by
  induction l with
  | nil => rfl
  | cons p rest ih =>
    obtain ⟨name, ch⟩ := p
    by_cases h : name = m.Name
    · simp [publishLoop, h, List.filter, ih]
    · simp [publishLoop, h, List.filter, ih]

/- ### Unfolding lemmas for the three event kinds -/

/-- A LOGIN event stores the reply channel under the name and sends nothing. -/
theorem handleBoard1_login (cs : Clients) (name : String) (ch : Nat) :
    handleBoard1 cs (Board.Login name ch)
      = { clients := mapInsert cs name ch, sends := [] } := rfl

/-- A LOGOUT event deletes the name's binding and sends nothing. -/
theorem handleBoard1_logout (cs : Clients) (name : String) :
    handleBoard1 cs (Board.Logout name)
      = { clients := mapDelete cs name, sends := [] } := rfl

/-- A TEXTLINE event keeps the mapping and runs the publish loop. -/
theorem handleBoard1_publish (cs : Clients) (sender msg : String) :
    handleBoard1 cs (Board.Publish sender msg)
      = { clients := cs, sends := publishLoop (Board.Publish sender msg) cs } := rfl

/- ### Helper lemmas about the Go-map model -/

/-- Membership after a Go-map assignment: exactly the new binding plus the old
bindings with a different key. -/
theorem mem_mapInsert (cs : Clients) (k : String) (v : Nat) (p : String × Nat) :
    p ∈ mapInsert cs k v ↔ p = (k, v) ∨ (p ∈ cs ∧ p.1 ≠ k) := by
  unfold mapInsert
  by_cases h : cs.any (fun q => q.1 = k)
  · simp only [h, if_pos, List.mem_map]
    constructor
    · rintro ⟨q, hq, hfq⟩
      by_cases hk : q.1 = k
      · left; simp [hk] at hfq; exact hfq.symm
      · right; simp [hk] at hfq; subst hfq; exact ⟨hq, hk⟩
    · rintro (rfl | ⟨hp, hk⟩)
      · rcases List.any_eq_true.mp h with ⟨q, hq, hqk⟩
        simp only [decide_eq_true_eq] at hqk
        exact ⟨q, hq, by simp [hqk]⟩
      · exact ⟨p, hp, by simp [hk]⟩
  · have h' : ∀ q ∈ cs, q.1 ≠ k := by
      intro q hq hqk
      exact h (List.any_eq_true.mpr ⟨q, hq, by simp [hqk]⟩)
    simp only [h, Bool.false_eq_true, if_false, List.mem_append, List.mem_singleton]
    constructor
    · rintro (hp | rfl)
      · exact Or.inr ⟨hp, h' p hp⟩
      · exact Or.inl rfl
    · rintro (rfl | ⟨hp, _⟩)
      · exact Or.inr rfl
      · exact Or.inl hp

/-- Looking up the assigned key after a Go-map assignment yields the assigned
value. -/
theorem mapLookup_mapInsert_self (cs : Clients) (k : String) (v : Nat) :
    mapLookup (mapInsert cs k v) k = some v := by
  induction cs with
  | nil => simp [mapInsert, mapLookup]
  | cons p rest ih =>
    unfold mapInsert at *
    by_cases hp : p.1 = k
    · have hany : (p :: rest).any (fun q => decide (q.1 = k)) = true := by
        simp [List.any_cons, hp]
      simp [hany, hp, mapLookup, List.find?]
    · by_cases hr : rest.any (fun q => decide (q.1 = k)) = true
      · have hany : (p :: rest).any (fun q => decide (q.1 = k)) = true := by
          simp [List.any_cons, hr]
        simp only [hany, if_pos, List.map_cons, if_neg hp]
        simp only [hr, if_pos] at ih
        simpa [mapLookup, List.find?_cons, hp] using ih
      · have hany : (p :: rest).any (fun q => decide (q.1 = k)) = false := by
          simp [List.any_cons, hp, hr]
        rw [Bool.not_eq_true] at hr
        simp only [hany, Bool.false_eq_true, if_false, List.cons_append]
        simp only [hr, Bool.false_eq_true, if_false] at ih
        simpa [mapLookup, List.find?_cons, hp] using ih

/-- A lookup returning `none` means no binding carries the key. -/
theorem mapLookup_eq_none_forall (cs : Clients) (k : String)
    (h : mapLookup cs k = none) : ∀ p ∈ cs, p.1 ≠ k := by
  have hfind : cs.find? (fun p => decide (p.1 = k)) = none := by
    cases hfe : cs.find? (fun p => decide (p.1 = k)) with
    | none => rfl
    | some q => simp [mapLookup, hfe] at h
  intro p hp
  have := List.find?_eq_none.mp hfind p hp
  simpa using this

/- ### C1: Publish delivers to exactly the non-sender members -/

/-- C1: processing a Publish from `sender` performs exactly one send per
currently-registered member whose name differs from `sender` (each receiving
the published notification), never to the binding whose name equals the
sender; on a board whose only member is the sender it sends nothing. -/
theorem publish_delivers_exactly_nonsenders (cs : Clients) (sender msg : String) (ch : Nat) :
    (handleBoard1 cs (Board.Publish sender msg)).sends
      = (cs.filter (fun p => p.1 ≠ sender)).map (fun p => (p.2, Board.Publish sender msg))
    ∧ (handleBoard1 [(sender, ch)] (Board.Publish sender msg)).sends = [] := by
  constructor
  · rw [handleBoard1_publish]
    exact publishLoop_eq_filter (Board.Publish sender msg) cs
  · rw [handleBoard1_publish]
    simp [publishLoop, Board.Publish]

/- ### C5: Logout of an absent name leaves membership unchanged -/

/-- C5: processing a Logout for a name not in the membership mapping leaves
the mapping exactly unchanged (and performs no sends). -/
theorem logout_absent_noop (cs : Clients) (name : String)
    (h : mapLookup cs name = none) :
    (handleBoard1 cs (Board.Logout name)).clients = cs
    ∧ (handleBoard1 cs (Board.Logout name)).sends = [] := by
  have habs := mapLookup_eq_none_forall cs name h
  refine ⟨?_, rfl⟩
  rw [handleBoard1_logout]
  exact List.filter_eq_self.mpr (fun p hp => decide_eq_true (habs p hp))

/-- Witness for C5 at a concrete board. -/
theorem logout_absent_noop_witness :
    (handleBoard1 [("alice", 7)] (Board.Logout "bob")).clients = [("alice", 7)]
    ∧ (handleBoard1 [("alice", 7)] (Board.Logout "bob")).sends = [] :=
  logout_absent_noop [("alice", 7)] "bob" (by decide)

/- ### C6: login twice then logout once removes the name completely -/

/-- C6: from any board state, two Logins for `name` (any channels) followed by
one Logout for `name` leave no binding for `name` in the membership mapping. -/
theorem login_twice_logout_once_removes (cs : Clients) (name : String) (ch1 ch2 : Nat) :
    mapLookup
      (handleBoard1
        (handleBoard1
          (handleBoard1 cs (Board.Login name ch1)).clients
          (Board.Login name ch2)).clients
        (Board.Logout name)).clients name = none
    ∧ ∀ p ∈ (handleBoard1
        (handleBoard1
          (handleBoard1 cs (Board.Login name ch1)).clients
          (Board.Login name ch2)).clients
        (Board.Logout name)).clients, p.1 ≠ name := by
  have hclem : ∀ (l : Clients) (p : String × Nat), p ∈ mapDelete l name → p.1 ≠ name := by
    intro l p hp
    have := List.of_mem_filter hp
    simpa using this
  simp only [handleBoard1_login, handleBoard1_logout]
  constructor
  · have hnone : (mapDelete (mapInsert (mapInsert cs name ch1) name ch2) name).find?
        (fun p => decide (p.1 = name)) = none :=
      List.find?_eq_none.mpr (fun p hp => by simpa using hclem _ p hp)
    simp [mapLookup, hnone]
  · intro p hp
    exact hclem _ p hp

/- ### C4: Publish from an unregistered sender -/

/-- C4 counterexample: on a board whose only member is "bob", a Publish from
the unregistered sender "alice" is NOT a no-op — it sends the message to
"bob"'s channel. -/
theorem publish_unregistered_not_noop :
    ¬ ((handleBoard1 [("bob", 1)] (Board.Publish "alice" "hi")).sends = []) := by
  decide

/-- C4 amended: processing a Publish whose sender is not currently registered
raises no error and leaves the membership mapping unchanged, but it is not a
no-op: since no member's name equals the sender's, it delivers the message to
every currently-registered member. -/
theorem publish_unregistered_broadcasts (cs : Clients) (sender msg : String)
    (h : mapLookup cs sender = none) :
    (handleBoard1 cs (Board.Publish sender msg)).clients = cs
    ∧ (handleBoard1 cs (Board.Publish sender msg)).sends
        = cs.map (fun p => (p.2, Board.Publish sender msg)) := by
  have habs := mapLookup_eq_none_forall cs sender h
  refine ⟨rfl, ?_⟩
  have h1 := (publish_delivers_exactly_nonsenders cs sender msg 0).1
  rw [h1, List.filter_eq_self.mpr (fun p hp => decide_eq_true (habs p hp))]

/-- Witness for C4's amended theorem at a concrete board. -/
theorem publish_unregistered_broadcasts_witness :
    (handleBoard1 [("bob", 1)] (Board.Publish "alice" "hi")).clients = [("bob", 1)]
    ∧ (handleBoard1 [("bob", 1)] (Board.Publish "alice" "hi")).sends
        = [("bob", 1)].map (fun p => (p.2, Board.Publish "alice" "hi")) :=
  publish_unregistered_broadcasts [("bob", 1)] "alice" "hi" (by decide)

/- ### C9: Publish leaves membership unchanged -/

/-- C9: processing any TEXTLINE event leaves the membership mapping exactly
unchanged. -/
theorem publish_preserves_clients (cs : Clients) (m : Notification)
    (h : m.type = TEXTLINE) :
    (handleBoard1 cs m).clients = cs := by
  simp [handleBoard1, h, TEXTLINE, LOGIN, LOGOUT]

/-- Witness for C9 at a concrete board and event. -/
theorem publish_preserves_clients_witness :
    (handleBoard1 [("alice", 2), ("bob", 1)] (Board.Publish "alice" "hi")).clients
      = [("alice", 2), ("bob", 1)] :=
  publish_preserves_clients [("alice", 2), ("bob", 1)] (Board.Publish "alice" "hi") rfl

/- ### C10: events with an unknown tag are consumed without effect -/

/-- C10: an event whose tag is none of LOGIN, LOGOUT, TEXTLINE falls through
the switch: the loop consumes it, sends nothing, and leaves membership
unchanged. -/
theorem unknown_event_noop (cs : Clients) (m : Notification)
    (h1 : m.type ≠ LOGIN) (h2 : m.type ≠ LOGOUT) (h3 : m.type ≠ TEXTLINE) :
    handleBoard1 cs m = { clients := cs, sends := [] } := by
  simp [handleBoard1, h1, h2, h3]

/-- Witness for C10 at a concrete event with tag 3. -/
theorem unknown_event_noop_witness :
    handleBoard1 [("alice", 2)] { type := 3, Msg := "x", Name := "y", ReplyCh := 5 }
      = { clients := [("alice", 2)], sends := [] } :=
  unknown_event_noop [("alice", 2)] { type := 3, Msg := "x", Name := "y", ReplyCh := 5 }
    (by decide) (by decide) (by decide)

/- ### C3: a second Login for the same name overwrites (last writer wins) -/

/-- C3: after two Logins for `name` (first with channel `ch1`, then `ch2`),
the membership maps `name` to `ch2`; a Publish from a different sender sends
to `ch2`, and — provided `ch1` is fresh (registered nowhere else and distinct
from `ch2`) — no send of that Publish reaches `ch1`. -/
theorem login_overwrite_last_wins (cs : Clients) (name sender msg : String) (ch1 ch2 : Nat)
    (hfresh : ∀ p ∈ cs, p.2 ≠ ch1) (hch : ch1 ≠ ch2) (hs : sender ≠ name) :
    mapLookup
      (handleBoard1 (handleBoard1 cs (Board.Login name ch1)).clients
        (Board.Login name ch2)).clients name = some ch2
    ∧ (∃ q ∈ (handleBoard1
          (handleBoard1 (handleBoard1 cs (Board.Login name ch1)).clients
            (Board.Login name ch2)).clients
          (Board.Publish sender msg)).sends, q.1 = ch2)
    ∧ ∀ q ∈ (handleBoard1
          (handleBoard1 (handleBoard1 cs (Board.Login name ch1)).clients
            (Board.Login name ch2)).clients
          (Board.Publish sender msg)).sends, q.1 ≠ ch1 := by
  simp only [handleBoard1_login, handleBoard1_publish, publishLoop_eq_filter]
  refine ⟨mapLookup_mapInsert_self _ _ _, ?_, ?_⟩
  · refine ⟨(ch2, Board.Publish sender msg), ?_, rfl⟩
    refine List.mem_map.mpr ⟨(name, ch2), List.mem_filter.mpr ⟨?_, ?_⟩, rfl⟩
    · exact (mem_mapInsert _ _ _ _).mpr (Or.inl rfl)
    · exact decide_eq_true (Ne.symm hs)
  · intro q hq
    rcases List.mem_map.mp hq with ⟨p, hpf, rfl⟩
    have hp2 : p ∈ mapInsert (mapInsert cs name ch1) name ch2 :=
      (List.mem_filter.mp hpf).1
    show p.2 ≠ ch1
    rcases (mem_mapInsert _ _ _ _).mp hp2 with rfl | ⟨hp1, hpn⟩
    · exact hch.symm
    · rcases (mem_mapInsert _ _ _ _).mp hp1 with rfl | ⟨hpcs, _⟩
      · exact absurd rfl hpn
      · exact hfresh p hpcs

/-- Witness for C3 with fresh channels 1 and 2 on an empty starting board. -/
theorem login_overwrite_last_wins_witness :
    mapLookup
      (handleBoard1 (handleBoard1 [] (Board.Login "bob" 1)).clients
        (Board.Login "bob" 2)).clients "bob" = some 2
    ∧ (∃ q ∈ (handleBoard1
          (handleBoard1 (handleBoard1 [] (Board.Login "bob" 1)).clients
            (Board.Login "bob" 2)).clients
          (Board.Publish "alice" "hi")).sends, q.1 = 2)
    ∧ ∀ q ∈ (handleBoard1
          (handleBoard1 (handleBoard1 [] (Board.Login "bob" 1)).clients
            (Board.Login "bob" 2)).clients
          (Board.Publish "alice" "hi")).sends, q.1 ≠ 1 :=
  login_overwrite_last_wins [] "bob" "alice" "hi" 1 2 (by simp) (by decide) (by decide)

/- ### Connection handler (`Serve`) -/

/-- Go `unicode.IsSpace`, the predicate `strings.TrimSpace` trims by: the
white-space code points `'\t' '\n' '\v' '\f' '\r' ' '`, NEL, NBSP, and the
Unicode space-separator characters. -/
def isSpace (c : Char) : Bool :=
  c == ' ' || c == '\t' || c == '\n' || c == '\x0b' || c == '\x0c' || c == '\r' ||
  c == '\u0085' || c == ' ' || c == ' ' ||
  (decide (0x2000 ≤ c.toNat) && decide (c.toNat ≤ 0x200A)) ||
  c == ' ' || c == ' ' || c == ' ' || c == ' ' || c == '　'

/-- Go `strings.TrimSpace`: drop the longest all-space prefix and the longest
all-space suffix. -/
def trimSpace (s : String) : String :=
  String.mk (((s.data.dropWhile isSpace).reverse.dropWhile isSpace).reverse)

/-- The registration step of `Serve`: the first line read from the client is
passed through `strings.TrimSpace` and the result is the name in the
submitted Login event (`b.Login(name, reply)`). -/
def serveLogin (rawLine : String) (reply : Nat) : Notification :=
  Board.Login (trimSpace rawLine) reply

/-- The reader goroutine of `Serve`: `reader.ReadString('\n')` accumulates
input up to and including a newline; each complete line is submitted verbatim
as a Publish; when the input ends before a delimiter (the read error case)
the partial read is discarded, a Logout is submitted and the loop exits.
`acc` is the partial line read so far. -/
def readLoopAux (name : String) (acc : List Char) : List Char → List Notification
  | [] => [Board.Logout name]
  | c :: rest =>
    if c = '\n' then
      Board.Publish name (String.mk (acc ++ [c])) :: readLoopAux name [] rest
    else
      readLoopAux name (acc ++ [c]) rest

/-- All events the reader goroutine submits to the board for a client input
stream. -/
def serveReadLoop (name : String) (input : List Char) : List Notification :=
  readLoopAux name [] input

/-- The bytes `Serve` writes to a recipient's stream for one delivered
notification: `fmt.Sprintf("%s: %s", r.Name, r.Msg)`. -/
def serveWriteMessage (r : Notification) : String :=
  r.Name ++ ": " ++ r.Msg

/- ### Helper lemmas for the handler -/

/-- Consuming one complete line: the whole line, newline included, is
published and the loop restarts with an empty partial read. -/
theorem readLoopAux_line (name : String) :
    ∀ (line acc rest : List Char), '\n' ∉ line →
      readLoopAux name acc (line ++ '\n' :: rest)
        = Board.Publish name (String.mk (acc ++ line ++ ['\n']))
            :: readLoopAux name [] rest := by
  intro line
  induction line with
  | nil =>
    intro acc rest _
    simp [readLoopAux]
  | cons c cl ih =>
    intro acc rest h
    have hc : ¬ (c = '\n') := fun hh => h (hh ▸ List.mem_cons_self c cl)
    simp only [List.cons_append, readLoopAux, if_neg hc, List.append_eq]
    rw [ih (acc ++ [c]) rest (fun hm => h (List.mem_cons_of_mem _ hm))]
    simp

/-- The first element surviving `dropWhile` fails the predicate. -/
theorem head?_dropWhile_not (p : Char → Bool) :
    ∀ (l : List Char) (c : Char), (l.dropWhile p).head? = some c → p c = false := by
  intro l
  induction l with
  | nil => intro c h; simp [List.dropWhile] at h
  | cons a as ih =>
    intro c h
    rw [List.dropWhile_cons] at h
    by_cases ha : p a
    · rw [if_pos ha] at h
      exact ih c h
    · rw [if_neg ha] at h
      simp only [List.head?_cons, Option.some.injEq] at h
      subst h
      simpa using ha

/-- `dropWhile` only removes a prefix: a nonempty result keeps the original
last element. -/
theorem getLast?_dropWhile_ne_nil (p : Char → Bool) :
    ∀ l : List Char, l.dropWhile p ≠ [] → (l.dropWhile p).getLast? = l.getLast? := by
  intro l
  induction l with
  | nil => intro h; simp [List.dropWhile] at h
  | cons a as ih =>
    intro h
    rw [List.dropWhile_cons] at h ⊢
    by_cases ha : p a
    · rw [if_pos ha] at h ⊢
      rw [ih h]
      cases as with
      | nil => simp [List.dropWhile] at h
      | cons b bs => simp
    · rw [if_neg ha]

/- ### C8: the registered name is the trimmed first line -/

/-- C8: the name `Serve` registers is the first line with all leading and
trailing white space stripped: the line decomposes as an all-space prefix,
the registered name (spaceless at both ends), and an all-space suffix; an
all-space line trims to the empty name; and the trimmed name — empty or not —
becomes the membership key bound to the handler's reply channel. -/
theorem serve_registers_trimmed_name (s : String) (reply : Nat) (cs : Clients) :
    (serveLogin s reply).Name = trimSpace s
    ∧ (∃ pre suf : List Char,
        s.data = pre ++ (trimSpace s).data ++ suf
        ∧ (∀ c ∈ pre, isSpace c = true) ∧ (∀ c ∈ suf, isSpace c = true))
    ∧ (∀ c : Char, ((trimSpace s).data.head? = some c → isSpace c = false)
        ∧ ((trimSpace s).data.getLast? = some c → isSpace c = false))
    ∧ ((∀ c ∈ s.data, isSpace c = true) → trimSpace s = "")
    ∧ mapLookup (handleBoard1 cs (serveLogin s reply)).clients (trimSpace s) = some reply := by
  refine ⟨rfl, ?_, ?_, ?_, ?_⟩
  · refine ⟨s.data.takeWhile isSpace,
      ((s.data.dropWhile isSpace).reverse.takeWhile isSpace).reverse, ?_, ?_, ?_⟩
    · show s.data
        = List.takeWhile isSpace s.data
          ++ (List.dropWhile isSpace (List.dropWhile isSpace s.data).reverse).reverse
          ++ (List.takeWhile isSpace (List.dropWhile isSpace s.data).reverse).reverse
      have key : ∀ l : List Char,
          l = (List.dropWhile isSpace l.reverse).reverse
            ++ (List.takeWhile isSpace l.reverse).reverse := by
        intro l
        conv_lhs => rw [← List.reverse_reverse l,
          ← List.takeWhile_append_dropWhile (p := isSpace) (l := l.reverse)]
        rw [List.reverse_append]
      rw [List.append_assoc, ← key (List.dropWhile isSpace s.data),
        List.takeWhile_append_dropWhile]
    · intro c hc
      exact List.mem_takeWhile_imp hc
    · intro c hc
      exact List.mem_takeWhile_imp (List.mem_reverse.mp hc)
  · intro c
    constructor
    · intro h
      have h1 : ((s.data.dropWhile isSpace).reverse.dropWhile isSpace).getLast? = some c := by
        rw [← List.head?_reverse]
        exact h
      have hne : (s.data.dropWhile isSpace).reverse.dropWhile isSpace ≠ [] := by
        intro he
        rw [he] at h1
        simp at h1
      rw [getLast?_dropWhile_ne_nil isSpace _ hne, List.getLast?_reverse] at h1
      exact head?_dropWhile_not isSpace _ c h1
    · intro h
      have h1 : ((s.data.dropWhile isSpace).reverse.dropWhile isSpace).head? = some c := by
        rw [← List.getLast?_reverse]
        exact h
      exact head?_dropWhile_not isSpace _ c h1
  · intro hall
    have h1 : s.data.dropWhile isSpace = [] :=
      List.dropWhile_eq_nil_iff.mpr (fun a ha => hall a ha)
    show String.mk (((s.data.dropWhile isSpace).reverse.dropWhile isSpace).reverse) = ""
    rw [h1]
    rfl
  · exact mapLookup_mapInsert_self cs (trimSpace s) reply

/-- Witness for C8 at the line `"  bob "`. -/
theorem serve_registers_trimmed_name_witness :
    (serveLogin "  bob " 5).Name = trimSpace "  bob "
    ∧ (∃ pre suf : List Char,
        ("  bob " : String).data = pre ++ (trimSpace "  bob ").data ++ suf
        ∧ (∀ c ∈ pre, isSpace c = true) ∧ (∀ c ∈ suf, isSpace c = true))
    ∧ (∀ c : Char, ((trimSpace "  bob ").data.head? = some c → isSpace c = false)
        ∧ ((trimSpace "  bob ").data.getLast? = some c → isSpace c = false))
    ∧ ((∀ c ∈ ("  bob " : String).data, isSpace c = true) → trimSpace "  bob " = "")
    ∧ mapLookup (handleBoard1 [] (serveLogin "  bob " 5)).clients (trimSpace "  bob ")
        = some 5 :=
  serve_registers_trimmed_name "  bob " 5 []

/- ### C7: lines are published verbatim and rendered with the name prefix -/

/-- C7: a complete line (newline included) is submitted verbatim as a
Publish, and every send that Publish causes carries a notification whose
rendering on the recipient's stream is exactly
`"<senderName>: <originalLineWithNewline>"`. -/
theorem serve_line_verbatim (name : String) (line rest : List Char) (cs : Clients)
    (h : '\n' ∉ line) :
    serveReadLoop name (line ++ '\n' :: rest)
      = Board.Publish name (String.mk (line ++ ['\n'])) :: serveReadLoop name rest
    ∧ ∀ q ∈ (handleBoard1 cs (Board.Publish name (String.mk (line ++ ['\n'])))).sends,
        serveWriteMessage q.2 = name ++ ": " ++ String.mk (line ++ ['\n']) := by
  constructor
  · unfold serveReadLoop
    simpa using readLoopAux_line name line [] rest h
  · intro q hq
    simp only [handleBoard1_publish, publishLoop_eq_filter] at hq
    rcases List.mem_map.mp hq with ⟨p, _, rfl⟩
    rfl

/-- Witness for C7 at the line `"hi\n"` sent to a board with one other
member. -/
theorem serve_line_verbatim_witness :
    serveReadLoop "alice" (['h', 'i'] ++ '\n' :: [])
      = Board.Publish "alice" (String.mk (['h', 'i'] ++ ['\n']))
          :: serveReadLoop "alice" []
    ∧ ∀ q ∈ (handleBoard1 [("bob", 1)]
          (Board.Publish "alice" (String.mk (['h', 'i'] ++ ['\n'])))).sends,
        serveWriteMessage q.2 = "alice" ++ ": " ++ String.mk (['h', 'i'] ++ ['\n']) :=
  serve_line_verbatim "alice" ['h', 'i'] [] [("bob", 1)] (by decide)

/- ### C2: concurrent submission is linearizable -/

/-- A state of the whole system: the pending event queue of each of the N
connection handlers (each handler submits its own events in program order),
the Board's membership mapping, and the trace of events the Board's loop has
consumed so far, in consumption order. -/
structure SysState where
  queues : List (List Notification)
  clients : Clients
  trace : List Notification

/-- One step of the system: `HandleBoard`'s loop receives the next event of
some handler `i` from the shared wakeup channel and processes it.  The choice
of `i` is nondeterministic, modelling the arbitrary arrival order of
concurrent senders on the channel; the Board still consumes exactly one event
per step. -/
inductive SysStep : SysState → SysState → Prop where
  | consume (s : SysState) (i : Nat) (m : Notification) (q : List Notification)
      (h : s.queues.get? i = some (m :: q)) :
      SysStep s { queues := s.queues.set i q,
                  clients := (handleBoard1 s.clients m).clients,
                  trace := s.trace ++ [m] }

/-- Zero or more system steps. -/
inductive SysReach : SysState → SysState → Prop where
  | refl (s : SysState) : SysReach s s
  | tail {s t u : SysState} : SysReach s t → SysStep t u → SysReach s u

/-- Applying a sequence of events to the empty membership mapping, one at a
time in order. -/
def applyTrace (evs : List Notification) : Clients :=
  evs.foldl (fun cs m => (handleBoard1 cs m).clients) []

/-- The initial system state: all handler queues pending, empty board, no
event consumed yet. -/
def sysInit (qs : List (List Notification)) : SysState :=
  { queues := qs, clients := [], trace := [] }

/-- One consumed event preserves the trace invariant. -/
theorem sysStep_keeps_inv {t u : SysState} (hstep : SysStep t u)
    (ht : t.clients = applyTrace t.trace) : u.clients = applyTrace u.trace := by
  cases hstep with
  | consume i m q hq =>
    show (handleBoard1 t.clients m).clients = applyTrace (t.trace ++ [m])
    rw [ht]
    unfold applyTrace
    rw [List.foldl_append]
    rfl

/-- C2: from any initial set of per-handler event sequences, every reachable
system state's membership mapping equals the sequential application, to the
empty mapping, of the single total order (the consumed trace) in which the
Board's loop took the events — one event per step, whatever interleaving the
concurrent handlers produced. -/
theorem board_linearizable (qs : List (List Notification)) (s : SysState)
    (h : SysReach (sysInit qs) s) : s.clients = applyTrace s.trace := by
  induction h with
  | refl => rfl
  | tail _ hstep ih => exact sysStep_keeps_inv hstep ih

/-- Witness for C2: one handler with a single pending Login, one step. -/
theorem board_linearizable_witness :
    (SysState.mk ([[Board.Login "bob" 1]].set 0 [])
        (handleBoard1 [] (Board.Login "bob" 1)).clients
        ([] ++ [Board.Login "bob" 1])).clients
      = applyTrace ([] ++ [Board.Login "bob" 1]) :=
  board_linearizable [[Board.Login "bob" 1]] _
    (SysReach.tail (SysReach.refl _)
      (SysStep.consume (sysInit [[Board.Login "bob" 1]]) 0 (Board.Login "bob" 1) [] rfl))
